import Mathlib

/-!
# Verification of the crazycubes Instant-Insanity solver

A shallow embedding, in Lean 4, of `crazycubes.py`: a solver for a
six-cube Instant-Insanity-style puzzle.  A cube is a 6-slot vector of
integer face values in the order (Top, Bottom, Front, Back, Left, Right),
i.e. indices 0..5.  The program consists of

* a rotation engine `get_valid_rotation` performing a breadth-first
  exploration of cube orientations generated by the three quarter-turn
  generators `pitch`, `yaw`, `roll`, searching for a state with a
  prescribed Front (index 2) and Left (index 4) value;
* a combinatorial solver `solve_specific_format`: opposing-pair
  extraction, direction-set enumeration over `3^6` choice tuples,
  compatible-pair search, chirality resolution over `2^6` flip tuples,
  and a per-cube reporting loop.

The Python breadth-first loop iterates over a list while appending to it;
it is embedded here as a fuel-indexed recursion (`bfsAux`), where the
outer `Option` layer records whether the fuel sufficed.  `bfsFuel = 74`
is proved sufficient for every input (`bfsAux_isSome_of_fuel`), so the
embedding is total exactly where the Python loop terminates.
-/

set_option maxRecDepth 8000

/-- A cube state: 6 face values indexed by slot
(0 = Top, 1 = Bottom, 2 = Front, 3 = Back, 4 = Left, 5 = Right). -/
abbrev Cube := Fin 6 → ℤ

/-- Python `pitch`: `pitch(c) = [c[2], c[3], c[1], c[0], c[4], c[5]]`, the 90°
rotation about the Left-Right axis. -/
def pitch (c : Cube) : Cube := ![c 2, c 3, c 1, c 0, c 4, c 5]

/-- Python `yaw`: `yaw(c) = [c[0], c[1], c[4], c[5], c[3], c[2]]`, the 90°
rotation about the Top-Bottom axis. -/
def yaw (c : Cube) : Cube := ![c 0, c 1, c 4, c 5, c 3, c 2]

/-- Python `roll`: `roll(c) = [c[4], c[5], c[2], c[3], c[1], c[0]]`, the 90°
rotation about the Front-Back axis. -/
def roll (c : Cube) : Cube := ![c 4, c 5, c 2, c 3, c 1, c 0]

/-- The `attempts` list built by `get_valid_rotation` before its BFS
(lines 44-64 of the source).  It is dead code: the list is never read
after construction, so it has no effect on the returned value.  It is
embedded for completeness only. -/
def attempts (cube_data : Cube) : List Cube :=
  [cube_data, yaw cube_data, yaw (yaw cube_data), yaw (yaw (yaw cube_data)),
   pitch cube_data, yaw (pitch cube_data), yaw (yaw (pitch cube_data)),
   yaw (yaw (yaw (pitch cube_data))),
   pitch (pitch (pitch cube_data)), yaw (pitch (pitch (pitch cube_data))),
   yaw (yaw (pitch (pitch (pitch cube_data)))),
   yaw (yaw (yaw (pitch (pitch (pitch cube_data)))))]

/-- One fuel-indexed run of the breadth-first loop of `get_valid_rotation`:
the queue is the still-unprocessed suffix of the Python `queue` list, `seen`
the set of already-processed states.  A new state is recorded in `seen`,
tested against the target, and (only while `seen.card < 24`, the source's
guard) its three generator images are appended to the queue.  The outer
`Option` is `none` when the fuel runs out — a model artifact proved
unreachable for `bfsFuel` below; the inner value is the Python return value
paired with the final `seen` set. -/
def bfsAux (tf tl : ℤ) : ℕ → List Cube → Finset Cube → Option (Option Cube × Finset Cube)
  | 0, _, _ => none
  | _ + 1, [], seen => some (none, seen)
  | n + 1, state :: rest, seen =>
    if state ∈ seen then bfsAux tf tl n rest seen
    else
      let seen' := insert state seen
      if state 2 = tf ∧ state 4 = tl then some (some state, seen')
      else
        bfsAux tf tl n
          (if seen'.card < 24 then rest ++ [pitch state, yaw state, roll state] else rest)
          seen'

/-- Fuel that always suffices for the breadth-first loop (proved in
`bfsAux_isSome_of_fuel`): the loop processes at most `1 + 3·24 = 73`
queue entries. -/
def bfsFuel : ℕ := 74

/-- Python `get_valid_rotation(cube_data, target_front, target_left)`: BFS
from the
input state until Front (index 2) and Left (index 4) match the targets.
Returns the matching state, or `none` when the queue is exhausted. -/
def get_valid_rotation (cube_data : Cube) (target_front target_left : ℤ) : Option Cube :=
  match bfsAux target_front target_left bfsFuel [cube_data] ∅ with
  | some (res, _) => res
  | none => none

/-- Reachability: `Reach c x` holds when the orientation `x` is obtainable from `c` by some finite
composition of the three generators. -/
inductive Reach (c : Cube) : Cube → Prop
  | refl : Reach c c
  | pitch {x : Cube} : Reach c x → Reach c (pitch x)
  | yaw {x : Cube} : Reach c x → Reach c (yaw x)
  | roll {x : Cube} : Reach c x → Reach c (roll x)

/-- The 24 slot-permutations of the cube rotation group, as lists of source
slot indices: row `r` sends slot `i` of the input cube to slot `i` of the
rotated cube reading `r[i]`. -/
def patsL : List (List ℕ) :=
  [[0, 1, 2, 3, 4, 5], [4, 5, 2, 3, 1, 0], [1, 0, 2, 3, 5, 4], [5, 4, 2, 3, 0, 1],
   [2, 3, 1, 0, 4, 5], [4, 5, 1, 0, 3, 2], [3, 2, 1, 0, 5, 4], [5, 4, 1, 0, 2, 3],
   [1, 0, 3, 2, 4, 5], [4, 5, 3, 2, 0, 1], [0, 1, 3, 2, 5, 4], [5, 4, 3, 2, 1, 0],
   [3, 2, 0, 1, 4, 5], [4, 5, 0, 1, 2, 3], [2, 3, 0, 1, 5, 4], [5, 4, 0, 1, 3, 2],
   [0, 1, 4, 5, 3, 2], [3, 2, 4, 5, 1, 0], [1, 0, 4, 5, 2, 3], [2, 3, 4, 5, 0, 1],
   [0, 1, 5, 4, 2, 3], [2, 3, 5, 4, 1, 0], [1, 0, 5, 4, 3, 2], [3, 2, 5, 4, 0, 1]]

/-- Read entry `k` of a slot-permutation row as a `Fin 6`. -/
def rowGet (row : List ℕ) (k : ℕ) : Fin 6 := ⟨row.getD k 0 % 6, Nat.mod_lt _ (by omega)⟩

/-- Apply a slot-permutation row to a cube. -/
def applyRow (row : List ℕ) (c : Cube) : Cube := fun i => c (rowGet row i.val)

/-- The row-level action of `pitch`. -/
def pitchRow (row : List ℕ) : List ℕ :=
  [row.getD 2 0, row.getD 3 0, row.getD 1 0, row.getD 0 0, row.getD 4 0, row.getD 5 0]

/-- The row-level action of `yaw`. -/
def yawRow (row : List ℕ) : List ℕ :=
  [row.getD 0 0, row.getD 1 0, row.getD 4 0, row.getD 5 0, row.getD 3 0, row.getD 2 0]

/-- The row-level action of `roll`. -/
def rollRow (row : List ℕ) : List ℕ :=
  [row.getD 4 0, row.getD 5 0, row.getD 2 0, row.getD 3 0, row.getD 1 0, row.getD 0 0]

/-- The (at most 24) orientations of `c` given by the rotation-group table. -/
def orbit24 (c : Cube) : List Cube := patsL.map (fun row => applyRow row c)

/-- The multiset of the six face values of a cube. -/
def faceVals (c : Cube) : Multiset ℤ := ↑((List.finRange 6).map c)

/-- The three opposing-slot value pairs of a cube state, as a multiset of
unordered pairs. -/
def oppPairs (c : Cube) : Multiset (Multiset ℤ) :=
  {({c 0, c 1} : Multiset ℤ), {c 2, c 3}, {c 4, c 5}}

/-- Termination measure of the breadth-first loop: pending queue entries plus
three for every slot still free in the capped `seen` set. -/
def bfsMeasure (q : List Cube) (seen : Finset Cube) : ℕ :=
  q.length + 3 * (24 - min seen.card 24)

/-- Slots `i` and `j` lie on the same axis of the slot layout
(Top/Bottom = {0,1}, Front/Back = {2,3}, Left/Right = {4,5}). -/
def sameAxis (i j : Fin 6) : Prop := i.val / 2 = j.val / 2

instance sameAxisDec (i j : Fin 6) : Decidable (sameAxis i j) :=
  inferInstanceAs (Decidable (i.val / 2 = j.val / 2))

/-- Slots `i` and `j` are physically opposite faces. -/
def oppSlots (i j : Fin 6) : Prop := i ≠ j ∧ sameAxis i j

instance oppSlotsDec (i j : Fin 6) : Decidable (oppSlots i j) :=
  inferInstanceAs (Decidable (i ≠ j ∧ sameAxis i j))

/-- Slots `i` and `j` are adjacent faces (distinct axes). -/
def adjSlots (i j : Fin 6) : Prop := ¬ sameAxis i j

instance adjSlotsDec (i j : Fin 6) : Decidable (adjSlots i j) :=
  inferInstanceAs (Decidable ¬ sameAxis i j)

/-- Python `tuple(sorted((x, y)))` on a 2-tuple. -/
def sortPair (x y : ℤ) : ℤ × ℤ := if x ≤ y then (x, y) else (y, x)

/-- The three opposing-slot value pairs `(0-1), (2-3), (4-5)` of a cube, each
sorted — the body of the `EXTRACT PAIRS` loop of `solve_specific_format`. -/
def extract_pairs (c : Cube) : List (ℤ × ℤ) :=
  [sortPair (c 0) (c 1), sortPair (c 2) (c 3), sortPair (c 4) (c 5)]

/-- The `cube_pairs` list: pair extraction applied to every cube. -/
def cube_pairs (cubes : List Cube) : List (List (ℤ × ℤ)) := cubes.map extract_pairs

/-- Embedding of `itertools.product(xs, repeat=n)` as a list of `n`-element lists in
lexicographic enumeration order (first coordinate slowest). -/
def productR (xs : List ℕ) : ℕ → List (List ℕ)
  | 0 => [[]]
  | n + 1 => xs.flatMap fun x => (productR xs n).map (x :: ·)

/-- Embedding of `itertools.product(range(3), repeat=6)`: the 729 per-cube pair-slot
choice tuples, in enumeration order. -/
def indicesList : List (List ℕ) := productR [0, 1, 2] 6

/-- The `selected_pairs` list built for one choice tuple. -/
def selected_pairs (cubes : List Cube) (indices : List ℕ) : List (ℤ × ℤ) :=
  indices.enum.map fun ip => ((cube_pairs cubes).getD ip.1 []).getD ip.2 (0, 0)

/-- The `all_numbers` list: the 12 face values selected by one choice tuple,
in selection order. -/
def all_numbers (cubes : List Cube) (indices : List ℕ) : List ℤ :=
  (selected_pairs cubes indices).flatMap fun p => [p.1, p.2]

/-- Python `all(Counter(all_numbers)[k] == 2 for k in range(1, 7))`. -/
def validIndicesB (cubes : List Cube) (indices : List ℕ) : Bool :=
  ([1, 2, 3, 4, 5, 6] : List ℤ).all fun k => (all_numbers cubes indices).count k == 2

/-- A valid direction set as stored by the source:
`{'axes': indices, 'pairs': selected_pairs}`. -/
structure Config where
  axes : List ℕ
  pairs : List (ℤ × ℤ)
deriving DecidableEq

/-- The `valid_configs` list: all accepted direction sets, in enumeration
order. -/
def valid_configs (cubes : List Cube) : List Config :=
  (indicesList.filter (validIndicesB cubes)).map
    fun indices => ⟨indices, selected_pairs cubes indices⟩

/-- The collision test of the compatible-pair search: two axis-choice tuples
collide when they agree at some cube index `k < 6`. -/
def collide (a1 a2 : List ℕ) : Bool :=
  (List.range 6).any fun k => a1.getD k 0 == a2.getD k 0

/-- The index pairs `(i, j)` with `i < j < n`, in the nested-loop scan order
of the source. -/
def idxPairs (n : ℕ) : List (ℕ × ℕ) :=
  (List.range n).flatMap fun i => ((List.range n).drop (i + 1)).map fun j => (i, j)

/-- The `solutions` list: all non-colliding pairs of valid direction sets,
in scan order. -/
def solutions (cubes : List Cube) : List (Config × Config) :=
  (idxPairs (valid_configs cubes).length).filterMap fun ij =>
    let c1 := (valid_configs cubes).getD ij.1 ⟨[], []⟩
    let c2 := (valid_configs cubes).getD ij.2 ⟨[], []⟩
    if collide c1.axes c2.axes then none else some (c1, c2)

/-- Embedding of `itertools.product([0, 1], repeat=6)`: the 64 flip tuples, in
enumeration order. -/
def flipTuples : List (List ℕ) := productR [0, 1] 6

/-- Indexing a 2-tuple: `p[0]`, `p[1]`. -/
def tupGet (p : ℤ × ℤ) (k : ℕ) : ℤ := if k = 0 then p.1 else p.2

/-- Python `[pairs_list[k][flips[k]] for k in range(6)]`. -/
def primary (pairs_list : List (ℤ × ℤ)) (flips : List ℕ) : List ℤ :=
  (List.range 6).map fun k => tupGet (pairs_list.getD k (0, 0)) (flips.getD k 0)

/-- Python `len(set(primary)) == 6`. -/
def distinct6B (l : List ℤ) : Bool := l.dedup.length == 6

/-- Python `resolve_orientation(pairs_list)`: the first flip tuple whose primary values
are pairwise distinct, or `[]` when none exists. -/
def resolve_orientation (pairs_list : List (ℤ × ℤ)) : List ℤ :=
  match flipTuples.find? (fun flips => distinct6B (primary pairs_list flips)) with
  | some flips => primary pairs_list flips
  | none => []

/-- One row of the final report: a fully rotated cube, or the per-cube
`ERROR: Impossible Geometry` marker with its targets. -/
inductive Row where
  | ok (rotated : Cube) : Row
  | geomError (target_f target_l : ℤ) : Row
deriving DecidableEq

/-- The outcome of `solve_specific_format`: the `NO SOLUTION FOUND` report,
a per-cube table (both carrying the printed count of valid single-direction
sets), or an uncaught `IndexError` (modelled as `crash`). -/
inductive Report where
  | noSolution (nsets : ℕ) : Report
  | table (nsets : ℕ) (rows : List Row) : Report
  | crash : Report
deriving DecidableEq

/-- One iteration body of the reporting loop: `if rotated: print(values)
else: print(error marker)`. -/
def rowFor (c : Cube) (target_f target_l : ℤ) : Row :=
  match get_valid_rotation c target_f target_l with
  | some rotated => Row.ok rotated
  | none => Row.geomError target_f target_l

/-- The reporting loop `for i in range(6)` at the end of
`solve_specific_format`: row `i` reads `final_fronts[i]`, `final_lefts[i]`
and `cubes[i]` (an out-of-range access is an `IndexError`, i.e. `none`) and
prints the rotated cube or the per-cube error marker. -/
def reportRows (cubes : List Cube) (fronts lefts : List ℤ) : Option (List Row) :=
  (List.range 6).mapM fun i => do
    let target_f ← fronts.get? i
    let target_l ← lefts.get? i
    let c ← cubes.get? i
    pure (rowFor c target_f target_l)

/-- Python `solve_specific_format(cubes)`: the whole solver, returning its printed
outcome as a `Report`. -/
def solve_specific_format (cubes : List Cube) : Report :=
  match solutions cubes with
  | [] => Report.noSolution (valid_configs cubes).length
  | sol :: _ =>
    match reportRows cubes (resolve_orientation sol.1.pairs)
        (resolve_orientation sol.2.pairs) with
    | some rows => Report.table (valid_configs cubes).length rows
    | none => Report.crash

/-- The fixed six-cube input `my_cubes` of the source, rows in slot order
`[Top, Bottom, Front, Back, Left, Right]`. -/
def my_cubes : List Cube :=
  [![4, 1, 2, 5, 6, 3], ![6, 4, 5, 2, 3, 1], ![6, 3, 5, 2, 1, 4],
   ![5, 3, 4, 6, 2, 1], ![3, 6, 2, 1, 4, 5], ![4, 5, 6, 3, 1, 2]]

theorem pitch_applyRow (row : List ℕ) (c : Cube) :
    pitch (applyRow row c) = applyRow (pitchRow row) c := by
  funext i; fin_cases i <;> rfl

theorem yaw_applyRow (row : List ℕ) (c : Cube) :
    yaw (applyRow row c) = applyRow (yawRow row) c := by
  funext i; fin_cases i <;> rfl

theorem roll_applyRow (row : List ℕ) (c : Cube) :
    roll (applyRow row c) = applyRow (rollRow row) c := by
  funext i; fin_cases i <;> rfl

theorem applyRow_head (c : Cube) : applyRow [0, 1, 2, 3, 4, 5] c = c := by
  funext i; fin_cases i <;> rfl

theorem patsL_closed_pitch : ∀ row ∈ patsL, pitchRow row ∈ patsL := by decide

theorem patsL_closed_yaw : ∀ row ∈ patsL, yawRow row ∈ patsL := by decide

theorem patsL_closed_roll : ∀ row ∈ patsL, rollRow row ∈ patsL := by decide

theorem patsL_length : patsL.length = 24 := by decide

theorem self_mem_orbit24 (c : Cube) : c ∈ orbit24 c := by
  have : applyRow [0, 1, 2, 3, 4, 5] c ∈ orbit24 c :=
    List.mem_map_of_mem _ (by simp [patsL])
  rwa [applyRow_head] at this

theorem orbit24_closed_pitch {c x : Cube} (hx : x ∈ orbit24 c) : pitch x ∈ orbit24 c := by
  obtain ⟨row, hrow, rfl⟩ := List.mem_map.mp hx
  rw [pitch_applyRow]
  exact List.mem_map_of_mem _ (patsL_closed_pitch row hrow)

theorem orbit24_closed_yaw {c x : Cube} (hx : x ∈ orbit24 c) : yaw x ∈ orbit24 c := by
  obtain ⟨row, hrow, rfl⟩ := List.mem_map.mp hx
  rw [yaw_applyRow]
  exact List.mem_map_of_mem _ (patsL_closed_yaw row hrow)

theorem orbit24_closed_roll {c x : Cube} (hx : x ∈ orbit24 c) : roll x ∈ orbit24 c := by
  obtain ⟨row, hrow, rfl⟩ := List.mem_map.mp hx
  rw [roll_applyRow]
  exact List.mem_map_of_mem _ (patsL_closed_roll row hrow)

/-- Every reachable orientation appears in the 24-row table. -/
theorem Reach.mem_orbit24 {c x : Cube} (h : Reach c x) : x ∈ orbit24 c := by
  induction h with
  | refl => exact self_mem_orbit24 c
  | pitch _ ih => exact orbit24_closed_pitch ih
  | yaw _ ih => exact orbit24_closed_yaw ih
  | roll _ ih => exact orbit24_closed_roll ih

theorem orbit24_length (c : Cube) : (orbit24 c).length = 24 := by
  simp [orbit24, patsL_length]

theorem faceVals_eq_list (c : Cube) :
    faceVals c = ↑[c 0, c 1, c 2, c 3, c 4, c 5] := rfl

theorem faceVals_pitch (c : Cube) : faceVals (pitch c) = faceVals c := by
  rw [faceVals_eq_list, faceVals_eq_list]
  refine Multiset.coe_eq_coe.mpr (List.perm_iff_count.mpr fun a => ?_)
  show List.count a [c 2, c 3, c 1, c 0, c 4, c 5] = _
  simp only [List.count_cons, List.count_nil]
  ring

theorem faceVals_yaw (c : Cube) : faceVals (yaw c) = faceVals c := by
  rw [faceVals_eq_list, faceVals_eq_list]
  refine Multiset.coe_eq_coe.mpr (List.perm_iff_count.mpr fun a => ?_)
  show List.count a [c 0, c 1, c 4, c 5, c 3, c 2] = _
  simp only [List.count_cons, List.count_nil]
  ring

theorem faceVals_roll (c : Cube) : faceVals (roll c) = faceVals c := by
  rw [faceVals_eq_list, faceVals_eq_list]
  refine Multiset.coe_eq_coe.mpr (List.perm_iff_count.mpr fun a => ?_)
  show List.count a [c 4, c 5, c 2, c 3, c 1, c 0] = _
  simp only [List.count_cons, List.count_nil]
  ring

/-- Rotation preserves the multiset of face values. -/
theorem Reach.faceVals_eq {c x : Cube} (h : Reach c x) : faceVals x = faceVals c := by
  induction h with
  | refl => rfl
  | pitch _ ih => rw [faceVals_pitch]; exact ih
  | yaw _ ih => rw [faceVals_yaw]; exact ih
  | roll _ ih => rw [faceVals_roll]; exact ih

theorem oppPairs_pitch (c : Cube) : oppPairs (pitch c) = oppPairs c := by
  show ({({c 2, c 3} : Multiset ℤ), {c 1, c 0}, {c 4, c 5}} : Multiset (Multiset ℤ)) = _
  rw [Multiset.pair_comm (c 1) (c 0)]
  exact Multiset.cons_swap _ _ _

theorem oppPairs_yaw (c : Cube) : oppPairs (yaw c) = oppPairs c := by
  show ({({c 0, c 1} : Multiset ℤ), {c 4, c 5}, {c 3, c 2}} : Multiset (Multiset ℤ)) = _
  rw [Multiset.pair_comm (c 3) (c 2)]
  exact congrArg (Multiset.cons _) (Multiset.cons_swap _ _ _)

theorem oppPairs_roll (c : Cube) : oppPairs (roll c) = oppPairs c := by
  show ({({c 4, c 5} : Multiset ℤ), {c 2, c 3}, {c 1, c 0}} : Multiset (Multiset ℤ)) = _
  rw [Multiset.pair_comm (c 1) (c 0)]
  rw [show ({({c 4, c 5} : Multiset ℤ), {c 2, c 3}, {c 0, c 1}} : Multiset (Multiset ℤ))
      = {({c 2, c 3} : Multiset ℤ), {c 4, c 5}, {c 0, c 1}} from Multiset.cons_swap _ _ _]
  rw [show ({({c 2, c 3} : Multiset ℤ), {c 4, c 5}, {c 0, c 1}} : Multiset (Multiset ℤ))
      = {({c 2, c 3} : Multiset ℤ), {c 0, c 1}, {c 4, c 5}} from
      congrArg (Multiset.cons _) (Multiset.cons_swap _ _ _)]
  exact Multiset.cons_swap _ _ _

/-- Rotation never changes which values sit on opposite faces. -/
theorem Reach.oppPairs_eq {c x : Cube} (h : Reach c x) : oppPairs x = oppPairs c := by
  induction h with
  | refl => rfl
  | pitch _ ih => rw [oppPairs_pitch]; exact ih
  | yaw _ ih => rw [oppPairs_yaw]; exact ih
  | roll _ ih => rw [oppPairs_roll]; exact ih

/-- The breadth-first loop always terminates within the measure: appends to
the queue happen only while `seen.card < 24`, so at most `1 + 3·24`
queue entries are ever processed. -/
theorem bfsAux_isSome_of_fuel (tf tl : ℤ) :
    ∀ (n : ℕ) (q : List Cube) (seen : Finset Cube),
      bfsMeasure q seen < n → (bfsAux tf tl n q seen).isSome := by
  intro n
  induction n with
  | zero => intro q seen h; exact absurd h (Nat.not_lt_zero _)
  | succ n ih =>
    intro q seen h
    match q with
    | [] => simp [bfsAux]
    | state :: rest =>
      rw [bfsAux]
      by_cases hs : state ∈ seen
      · rw [if_pos hs]
        exact ih rest seen (by unfold bfsMeasure at h ⊢; rw [List.length_cons] at h; omega)
      · rw [if_neg hs]
        simp only []
        by_cases hm : state 2 = tf ∧ state 4 = tl
        · rw [if_pos hm]; rfl
        · rw [if_neg hm]
          have hcard : (insert state seen).card = seen.card + 1 :=
            Finset.card_insert_of_not_mem hs
          by_cases hg : (insert state seen).card < 24
          · rw [if_pos hg]
            refine ih _ _ ?_
            have hlen : (rest ++ [pitch state, yaw state, roll state]).length
                = rest.length + 3 := by simp
            unfold bfsMeasure at h ⊢
            rw [hlen]
            rw [List.length_cons] at h
            omega
          · rw [if_neg hg]
            refine ih _ _ ?_
            unfold bfsMeasure at h ⊢
            rw [List.length_cons] at h
            omega

/-- Soundness of the breadth-first loop: a returned state satisfies the
Front/Left targets and is reachable from `c`, provided every queue entry is. -/
theorem bfsAux_found {tf tl : ℤ} {c : Cube} :
    ∀ (n : ℕ) (q : List Cube) (seen : Finset Cube),
      (∀ y ∈ q, Reach c y) →
      ∀ {x : Cube} {sF : Finset Cube},
        bfsAux tf tl n q seen = some (some x, sF) →
        x 2 = tf ∧ x 4 = tl ∧ Reach c x := by
  intro n
  induction n with
  | zero => intro q seen _ x sF hx; exact absurd hx (by simp [bfsAux])
  | succ n ih =>
    intro q seen hq x sF hx
    match q with
    | [] => simp [bfsAux] at hx
    | state :: rest =>
      rw [bfsAux] at hx
      by_cases hs : state ∈ seen
      · rw [if_pos hs] at hx
        exact ih rest seen (fun y hy => hq y (List.mem_cons_of_mem _ hy)) hx
      · rw [if_neg hs] at hx
        simp only [] at hx
        by_cases hm : state 2 = tf ∧ state 4 = tl
        · rw [if_pos hm] at hx
          have h1 : (some state, insert state seen) = (some x, sF) := Option.some.inj hx
          have h2 : state = x := Option.some.inj (congrArg Prod.fst h1)
          subst h2
          exact ⟨hm.1, hm.2, hq state (List.mem_cons_self _ _)⟩
        · rw [if_neg hm] at hx
          refine ih _ _ ?_ hx
          intro y hy
          by_cases hg : (insert state seen).card < 24
          · rw [if_pos hg] at hy
            rcases List.mem_append.mp hy with h | h
            · exact hq y (List.mem_cons_of_mem _ h)
            · have hst : Reach c state := hq state (List.mem_cons_self _ _)
              simp only [List.mem_cons, List.not_mem_nil, or_false] at h
              rcases h with rfl | rfl | rfl
              · exact hst.pitch
              · exact hst.yaw
              · exact hst.roll
          · rw [if_neg hg] at hy
            exact hq y (List.mem_cons_of_mem _ hy)

/-- Every state recorded in the final `seen` set of the breadth-first loop
lies in the 24-row orientation table of `c`. -/
theorem bfsAux_seen_orbit {tf tl : ℤ} {c : Cube} :
    ∀ (n : ℕ) (q : List Cube) (seen : Finset Cube),
      (∀ y ∈ q, Reach c y) → (∀ y ∈ seen, y ∈ orbit24 c) →
      ∀ {r : Option Cube} {sF : Finset Cube},
        bfsAux tf tl n q seen = some (r, sF) →
        ∀ y ∈ sF, y ∈ orbit24 c := by
  intro n
  induction n with
  | zero => intro q seen _ _ r sF hx; exact absurd hx (by simp [bfsAux])
  | succ n ih =>
    intro q seen hq hseen r sF hx
    match q with
    | [] =>
      rw [bfsAux] at hx
      have h1 : (none, seen) = ((r, sF) : Option Cube × Finset Cube) := Option.some.inj hx
      have h2 : seen = sF := congrArg Prod.snd h1
      exact h2 ▸ hseen
    | state :: rest =>
      rw [bfsAux] at hx
      have hst : Reach c state := hq state (List.mem_cons_self _ _)
      by_cases hs : state ∈ seen
      · rw [if_pos hs] at hx
        exact ih rest seen (fun y hy => hq y (List.mem_cons_of_mem _ hy)) hseen hx
      · rw [if_neg hs] at hx
        simp only [] at hx
        have hins : ∀ y ∈ insert state seen, y ∈ orbit24 c := by
          intro y hy
          rcases Finset.mem_insert.mp hy with rfl | hy
          · exact hst.mem_orbit24
          · exact hseen y hy
        by_cases hm : state 2 = tf ∧ state 4 = tl
        · rw [if_pos hm] at hx
          have h1 : (some state, insert state seen) = (r, sF) := Option.some.inj hx
          have h2 : insert state seen = sF := congrArg Prod.snd h1
          exact h2 ▸ hins
        · rw [if_neg hm] at hx
          refine ih _ _ ?_ hins hx
          intro y hy
          by_cases hg : (insert state seen).card < 24
          · rw [if_pos hg] at hy
            rcases List.mem_append.mp hy with h | h
            · exact hq y (List.mem_cons_of_mem _ h)
            · simp only [List.mem_cons, List.not_mem_nil, or_false] at h
              rcases h with rfl | rfl | rfl
              · exact hst.pitch
              · exact hst.yaw
              · exact hst.roll
          · rw [if_neg hg] at hy
            exact hq y (List.mem_cons_of_mem _ hy)

/-- A set of states all drawn from the orientation table has at most 24
elements. -/
theorem card_le_24_of_orbit {c : Cube} {s : Finset Cube}
    (h : ∀ y ∈ s, y ∈ orbit24 c) : s.card ≤ 24 := by
  have hsub : s ⊆ (orbit24 c).toFinset := fun y hy => List.mem_toFinset.mpr (h y hy)
  calc s.card ≤ (orbit24 c).toFinset.card := Finset.card_le_card hsub
    _ ≤ (orbit24 c).length := (orbit24 c).toFinset_card_le
    _ = 24 := orbit24_length c

/-- Completeness of the breadth-first loop: if the loop finishes by
exhausting its queue, then no reachable orientation satisfies the targets.
The invariants: every queue/seen state is legitimate, no seen state matches,
and either the seen set is full (24 states, i.e. the whole orientation
table) or it is closed under the generators up to pending queue entries. -/
theorem bfsAux_none_complete {tf tl : ℤ} {c : Cube} :
    ∀ (n : ℕ) (q : List Cube) (seen : Finset Cube),
      (∀ y ∈ q, Reach c y) →
      (∀ y ∈ seen, y ∈ orbit24 c) →
      (∀ y ∈ seen, ¬(y 2 = tf ∧ y 4 = tl)) →
      (seen.card = 24 ∨ ∀ y ∈ seen,
        (pitch y ∈ seen ∨ pitch y ∈ q) ∧ (yaw y ∈ seen ∨ yaw y ∈ q) ∧
        (roll y ∈ seen ∨ roll y ∈ q)) →
      (c ∈ seen ∨ c ∈ q) →
      ∀ {sF : Finset Cube},
        bfsAux tf tl n q seen = some (none, sF) →
        ∀ x, Reach c x → ¬(x 2 = tf ∧ x 4 = tl) := by
  intro n
  induction n with
  | zero => intro q seen _ _ _ _ _ sF hx; exact absurd hx (by simp [bfsAux])
  | succ n ih =>
    intro q seen hq hseen hnm hcl hc sF hx
    match q with
    | [] =>
      have hall : ∀ x, Reach c x → x ∈ seen := by
        rcases hcl with hfull | hclosed
        · -- the seen set has 24 elements inside a ≤24-element table: it is the
          -- whole table, and every reachable state is in the table
          have hsub : seen ⊆ (orbit24 c).toFinset :=
            fun y hy => List.mem_toFinset.mpr (hseen y hy)
          have hcard : (orbit24 c).toFinset.card ≤ seen.card := by
            have := (orbit24 c).toFinset_card_le
            rw [orbit24_length] at this
            omega
          have heq : seen = (orbit24 c).toFinset :=
            Finset.eq_of_subset_of_card_le hsub hcard
          intro x hxr
          rw [heq]
          exact List.mem_toFinset.mpr hxr.mem_orbit24
        · -- the seen set is closed under the generators and contains c
          have hcs : c ∈ seen := by
            rcases hc with h | h
            · exact h
            · exact absurd h (List.not_mem_nil _)
          intro x hxr
          induction hxr with
          | refl => exact hcs
          | pitch _ ihr =>
            rcases (hclosed _ ihr).1 with h | h
            · exact h
            · exact absurd h (List.not_mem_nil _)
          | yaw _ ihr =>
            rcases (hclosed _ ihr).2.1 with h | h
            · exact h
            · exact absurd h (List.not_mem_nil _)
          | roll _ ihr =>
            rcases (hclosed _ ihr).2.2 with h | h
            · exact h
            · exact absurd h (List.not_mem_nil _)
      intro x hxr
      exact hnm x (hall x hxr)
    | state :: rest =>
      rw [bfsAux] at hx
      have hst : Reach c state := hq state (List.mem_cons_self _ _)
      by_cases hs : state ∈ seen
      · rw [if_pos hs] at hx
        refine ih rest seen (fun y hy => hq y (List.mem_cons_of_mem _ hy)) hseen hnm ?_ ?_ hx
        · rcases hcl with hfull | hclosed
          · exact Or.inl hfull
          · refine Or.inr fun y hy => ?_
            obtain ⟨h1, h2, h3⟩ := hclosed y hy
            refine ⟨?_, ?_, ?_⟩
            · rcases h1 with h | h
              · exact Or.inl h
              · rcases List.mem_cons.mp h with rfl | h
                · exact Or.inl hs
                · exact Or.inr h
            · rcases h2 with h | h
              · exact Or.inl h
              · rcases List.mem_cons.mp h with rfl | h
                · exact Or.inl hs
                · exact Or.inr h
            · rcases h3 with h | h
              · exact Or.inl h
              · rcases List.mem_cons.mp h with rfl | h
                · exact Or.inl hs
                · exact Or.inr h
        · rcases hc with h | h
          · exact Or.inl h
          · rcases List.mem_cons.mp h with rfl | h
            · exact Or.inl hs
            · exact Or.inr h
      · rw [if_neg hs] at hx
        simp only [] at hx
        have hins : ∀ y ∈ insert state seen, y ∈ orbit24 c := by
          intro y hy
          rcases Finset.mem_insert.mp hy with rfl | hy
          · exact hst.mem_orbit24
          · exact hseen y hy
        have hcard : (insert state seen).card = seen.card + 1 :=
          Finset.card_insert_of_not_mem hs
        by_cases hm : state 2 = tf ∧ state 4 = tl
        · rw [if_pos hm] at hx
          exact absurd (congrArg Prod.fst (Option.some.inj hx)) (by simp)
        · rw [if_neg hm] at hx
          have hnm' : ∀ y ∈ insert state seen, ¬(y 2 = tf ∧ y 4 = tl) := by
            intro y hy
            rcases Finset.mem_insert.mp hy with rfl | hy
            · exact hm
            · exact hnm y hy
          by_cases hg : (insert state seen).card < 24
          · rw [if_pos hg] at hx
            have hql : ∀ y ∈ rest ++ [pitch state, yaw state, roll state], Reach c y := by
              intro y hy
              rcases List.mem_append.mp hy with h | h
              · exact hq y (List.mem_cons_of_mem _ h)
              · simp only [List.mem_cons, List.not_mem_nil, or_false] at h
                rcases h with rfl | rfl | rfl
                · exact hst.pitch
                · exact hst.yaw
                · exact hst.roll
            refine ih _ _ hql hins hnm' ?_ ?_ hx
            · refine Or.inr fun y hy => ?_
              rcases Finset.mem_insert.mp hy with rfl | hy
              · refine ⟨Or.inr ?_, Or.inr ?_, Or.inr ?_⟩ <;>
                  · refine List.mem_append.mpr (Or.inr ?_)
                    simp
              · have hclosed : ∀ z ∈ seen,
                    (pitch z ∈ seen ∨ pitch z ∈ state :: rest) ∧
                    (yaw z ∈ seen ∨ yaw z ∈ state :: rest) ∧
                    (roll z ∈ seen ∨ roll z ∈ state :: rest) := by
                  rcases hcl with hfull | hclosed
                  · exact absurd hfull (by omega)
                  · exact hclosed
                obtain ⟨h1, h2, h3⟩ := hclosed y hy
                refine ⟨?_, ?_, ?_⟩
                · rcases h1 with h | h
                  · exact Or.inl (Finset.mem_insert_of_mem h)
                  · rcases List.mem_cons.mp h with heq | h
                    · exact Or.inl (heq ▸ Finset.mem_insert_self _ _)
                    · exact Or.inr (List.mem_append.mpr (Or.inl h))
                · rcases h2 with h | h
                  · exact Or.inl (Finset.mem_insert_of_mem h)
                  · rcases List.mem_cons.mp h with heq | h
                    · exact Or.inl (heq ▸ Finset.mem_insert_self _ _)
                    · exact Or.inr (List.mem_append.mpr (Or.inl h))
                · rcases h3 with h | h
                  · exact Or.inl (Finset.mem_insert_of_mem h)
                  · rcases List.mem_cons.mp h with heq | h
                    · exact Or.inl (heq ▸ Finset.mem_insert_self _ _)
                    · exact Or.inr (List.mem_append.mpr (Or.inl h))
            · rcases hc with h | h
              · exact Or.inl (Finset.mem_insert_of_mem h)
              · rcases List.mem_cons.mp h with rfl | h
                · exact Or.inl (Finset.mem_insert_self _ _)
                · exact Or.inr (List.mem_append.mpr (Or.inl h))
          · rw [if_neg hg] at hx
            have hfull : (insert state seen).card = 24 := by
              have hle : (insert state seen).card ≤ 24 := card_le_24_of_orbit hins
              omega
            refine ih rest _ (fun y hy => hq y (List.mem_cons_of_mem _ hy)) hins hnm'
              (Or.inl hfull) ?_ hx
            rcases hc with h | h
            · exact Or.inl (Finset.mem_insert_of_mem h)
            · rcases List.mem_cons.mp h with rfl | h
              · exact Or.inl (Finset.mem_insert_self _ _)
              · exact Or.inr h

/-- The fuel `bfsFuel = 74` always suffices for the initial queue `[c]`. -/
theorem bfs_run_isSome (c : Cube) (tf tl : ℤ) :
    (bfsAux tf tl bfsFuel [c] ∅).isSome := by
  refine bfsAux_isSome_of_fuel tf tl bfsFuel [c] ∅ ?_
  unfold bfsMeasure bfsFuel
  simp

/-- Soundness at the interface: a state returned by `get_valid_rotation`
matches the targets and is reachable from the input cube. -/
theorem get_valid_rotation_some {c x : Cube} {tf tl : ℤ}
    (h : get_valid_rotation c tf tl = some x) :
    x 2 = tf ∧ x 4 = tl ∧ Reach c x := by
  unfold get_valid_rotation at h
  cases hbfs : bfsAux tf tl bfsFuel [c] ∅ with
  | none => rw [hbfs] at h; exact absurd h (by simp)
  | some p =>
    obtain ⟨res, sF⟩ := p
    rw [hbfs] at h
    cases res with
    | none => exact absurd h (by simp)
    | some y =>
      have hxy : y = x := Option.some.inj h
      subst hxy
      refine bfsAux_found bfsFuel [c] ∅ ?_ hbfs
      intro z hz
      rw [List.mem_singleton.mp hz]
      exact Reach.refl

/-- Completeness at the interface: if `get_valid_rotation` returns `none`,
no reachable orientation of the cube satisfies the targets. -/
theorem get_valid_rotation_none {c : Cube} {tf tl : ℤ}
    (h : get_valid_rotation c tf tl = none) :
    ∀ x, Reach c x → ¬(x 2 = tf ∧ x 4 = tl) := by
  unfold get_valid_rotation at h
  cases hbfs : bfsAux tf tl bfsFuel [c] ∅ with
  | none =>
    have := bfs_run_isSome c tf tl
    rw [hbfs] at this
    exact absurd this (by simp)
  | some p =>
    obtain ⟨res, sF⟩ := p
    rw [hbfs] at h
    cases res with
    | some y => exact absurd h (by simp)
    | none =>
      refine bfsAux_none_complete bfsFuel [c] ∅ ?_ ?_ ?_ ?_ ?_ hbfs
      · intro z hz
        rw [List.mem_singleton.mp hz]
        exact Reach.refl
      · intro z hz; exact absurd hz (Finset.not_mem_empty z)
      · intro z hz; exact absurd hz (Finset.not_mem_empty z)
      · refine Or.inr fun z hz => absurd hz (Finset.not_mem_empty z)
      · exact Or.inr (List.mem_singleton.mpr rfl)

/-- For every pair of adjacent slots there is a rotation of `c` placing the
value of slot `i` at Front and the value of slot `j` at Left.  The witnesses
are explicit generator words. -/
theorem exists_reach_front_left (c : Cube) :
    ∀ i j : Fin 6, adjSlots i j → ∃ x, Reach c x ∧ x 2 = c i ∧ x 4 = c j := by
  intro i j hij
  fin_cases i <;> fin_cases j
  · exact absurd rfl hij
  · exact absurd rfl hij
  · exact ⟨roll (pitch (pitch (pitch c))), .roll (.pitch (.pitch (.pitch .refl))), rfl, rfl⟩
  · exact ⟨roll (roll (roll (pitch (pitch (pitch c))))),
      .roll (.roll (.roll (.pitch (.pitch (.pitch .refl))))), rfl, rfl⟩
  · exact ⟨pitch (pitch (pitch c)), .pitch (.pitch (.pitch .refl)), rfl, rfl⟩
  · exact ⟨roll (roll (pitch (pitch (pitch c)))),
      .roll (.roll (.pitch (.pitch (.pitch .refl)))), rfl, rfl⟩
  · exact absurd rfl hij
  · exact absurd rfl hij
  · exact ⟨roll (roll (roll (pitch c))), .roll (.roll (.roll (.pitch .refl))), rfl, rfl⟩
  · exact ⟨roll (pitch c), .roll (.pitch .refl), rfl, rfl⟩
  · exact ⟨pitch c, .pitch .refl, rfl, rfl⟩
  · exact ⟨roll (roll (pitch c)), .roll (.roll (.pitch .refl)), rfl, rfl⟩
  · exact ⟨roll (roll (roll c)), .roll (.roll (.roll .refl)), rfl, rfl⟩
  · exact ⟨roll c, .roll .refl, rfl, rfl⟩
  · exact absurd rfl hij
  · exact absurd rfl hij
  · exact ⟨c, .refl, rfl, rfl⟩
  · exact ⟨roll (roll c), .roll (.roll .refl), rfl, rfl⟩
  · exact ⟨roll (pitch (pitch c)), .roll (.pitch (.pitch .refl)), rfl, rfl⟩
  · exact ⟨roll (roll (roll (pitch (pitch c)))),
      .roll (.roll (.roll (.pitch (.pitch .refl)))), rfl, rfl⟩
  · exact absurd rfl hij
  · exact absurd rfl hij
  · exact ⟨pitch (pitch c), .pitch (.pitch .refl), rfl, rfl⟩
  · exact ⟨roll (roll (pitch (pitch c))), .roll (.roll (.pitch (.pitch .refl))), rfl, rfl⟩
  · exact ⟨roll (roll (roll (yaw c))), .roll (.roll (.roll (.yaw .refl))), rfl, rfl⟩
  · exact ⟨roll (yaw c), .roll (.yaw .refl), rfl, rfl⟩
  · exact ⟨roll (roll (yaw c)), .roll (.roll (.yaw .refl)), rfl, rfl⟩
  · exact ⟨yaw c, .yaw .refl, rfl, rfl⟩
  · exact absurd rfl hij
  · exact absurd rfl hij
  · exact ⟨roll (roll (roll (yaw (yaw (yaw c))))),
      .roll (.roll (.roll (.yaw (.yaw (.yaw .refl))))), rfl, rfl⟩
  · exact ⟨roll (yaw (yaw (yaw c))), .roll (.yaw (.yaw (.yaw .refl))), rfl, rfl⟩
  · exact ⟨yaw (yaw (yaw c)), .yaw (.yaw (.yaw .refl)), rfl, rfl⟩
  · exact ⟨roll (roll (yaw (yaw (yaw c)))),
      .roll (.roll (.yaw (.yaw (.yaw .refl)))), rfl, rfl⟩
  · exact absurd rfl hij
  · exact absurd rfl hij

/-- A list of length 6 is a sixfold cons. -/
theorem exists_six {α : Type} (l : List α) (h : l.length = 6) :
    ∃ a b c d e f, l = [a, b, c, d, e, f] := by
  match l with
  | [a, b, c, d, e, f] => exact ⟨a, b, c, d, e, f, rfl⟩

/-- The reporting loop on three six-element lists produces exactly six rows,
each computed by `rowFor`. -/
theorem reportRows_six (c1 c2 c3 c4 c5 c6 : Cube) (f1 f2 f3 f4 f5 f6 : ℤ)
    (l1 l2 l3 l4 l5 l6 : ℤ) :
    reportRows [c1, c2, c3, c4, c5, c6] [f1, f2, f3, f4, f5, f6]
        [l1, l2, l3, l4, l5, l6]
      = some [rowFor c1 f1 l1, rowFor c2 f2 l2, rowFor c3 f3 l3,
              rowFor c4 f4 l4, rowFor c5 f5 l5, rowFor c6 f6 l6] := rfl

/-- Membership in the embedded `itertools.product(xs, repeat=n)`: exactly
the `n`-element lists over `xs`. -/
theorem mem_productR {xs : List ℕ} :
    ∀ {n : ℕ} {l : List ℕ}, l ∈ productR xs n ↔ l.length = n ∧ ∀ x ∈ l, x ∈ xs := by
  intro n
  induction n with
  | zero =>
    intro l
    constructor
    · intro h
      rw [productR] at h
      rcases List.mem_singleton.mp h with rfl
      exact ⟨rfl, by intro x hx; exact absurd hx (List.not_mem_nil x)⟩
    · intro ⟨h1, _⟩
      rw [List.length_eq_zero.mp h1, productR]
      exact List.mem_singleton.mpr rfl
  | succ n ih =>
    intro l
    rw [productR]
    constructor
    · intro h
      obtain ⟨x, hx, hl⟩ := List.mem_flatMap.mp h
      obtain ⟨m, hm, rfl⟩ := List.mem_map.mp hl
      obtain ⟨hlen, hmem⟩ := ih.mp hm
      refine ⟨by simp [hlen], ?_⟩
      intro y hy
      rcases List.mem_cons.mp hy with rfl | hy
      · exact hx
      · exact hmem y hy
    · intro ⟨h1, h2⟩
      match l with
      | [] => exact absurd h1 (by simp)
      | x :: m =>
        refine List.mem_flatMap.mpr ⟨x, h2 x (List.mem_cons_self _ _), ?_⟩
        refine List.mem_map.mpr ⟨m, ih.mpr ⟨by simpa using h1, ?_⟩, rfl⟩
        intro y hy
        exact h2 y (List.mem_cons_of_mem _ hy)

/-- Pairwise property of a concatenation of blocks: blocks are internally
pairwise, and related blocks are elementwise related. -/
theorem pairwise_flatMap_of {α β : Type} {R' : α → α → Prop} {R : β → β → Prop}
    {f : α → List β} :
    ∀ {xs : List α}, List.Pairwise R' xs → (∀ x ∈ xs, List.Pairwise R (f x)) →
      (∀ x y, R' x y → ∀ a ∈ f x, ∀ b ∈ f y, R a b) →
      List.Pairwise R (xs.flatMap f) := by
  intro xs
  induction xs with
  | nil => intro _ _ _; simp
  | cons x xs ih =>
    intro hps hblk hcross
    rw [List.flatMap_cons, List.pairwise_append]
    refine ⟨hblk x (List.mem_cons_self _ _), ?_, ?_⟩
    · exact ih (List.Pairwise.of_cons hps) (fun y hy => hblk y (List.mem_cons_of_mem _ hy))
        hcross
    · intro a ha b hb
      obtain ⟨y, hy, hby⟩ := List.mem_flatMap.mp hb
      exact hcross x y ((List.pairwise_cons.mp hps).1 y hy) a ha b hby

/-- The embedded Cartesian product enumerates tuples in strictly increasing
lexicographic order whenever the base list is strictly sorted. -/
theorem productR_sorted_lex {xs : List ℕ} (hxs : List.Sorted (· < ·) xs) :
    ∀ n : ℕ, List.Pairwise (List.Lex (· < ·)) (productR xs n) := by
  intro n
  induction n with
  | zero => rw [productR]; exact List.pairwise_singleton _ _
  | succ n ih =>
    rw [productR]
    refine pairwise_flatMap_of hxs ?_ ?_
    · intro x _
      exact List.Pairwise.map _ (fun {l1 l2} h => List.Lex.cons h) ih
    · intro x y hxy a ha b hb
      obtain ⟨l1, _, rfl⟩ := List.mem_map.mp ha
      obtain ⟨l2, _, rfl⟩ := List.mem_map.mp hb
      exact List.Lex.rel hxy

/-- Sorting a 2-tuple via `tuple(sorted((x, y)))` keeps the same two values. -/
theorem sortPair_pair (x y : ℤ) :
    ({(sortPair x y).1, (sortPair x y).2} : Multiset ℤ) = {x, y} := by
  unfold sortPair
  split_ifs
  · rfl
  · exact Multiset.pair_comm y x

/-- Unordered pairs as 2-element multisets compare componentwise up to swap. -/
theorem pair_eq_pair {a b c d : ℤ} :
    ({a, b} : Multiset ℤ) = {c, d} ↔ (a = c ∧ b = d) ∨ (a = d ∧ b = c) := by
  constructor
  · intro h
    rcases Multiset.cons_eq_cons.mp h with ⟨h1, h2⟩ | ⟨_, u, hu1, hu2⟩
    · exact Or.inl ⟨h1, Multiset.singleton_inj.mp h2⟩
    · have hc1 : ({b} : Multiset ℤ).card = (c ::ₘ u).card := by rw [hu1]
      simp only [Multiset.card_singleton, Multiset.card_cons] at hc1
      have hu0 : u = 0 := Multiset.card_eq_zero.mp (by omega)
      subst hu0
      simp only [Multiset.cons_zero, Multiset.singleton_inj] at hu1 hu2
      exact Or.inr ⟨hu2.symm, hu1⟩
  · intro h
    rcases h with ⟨rfl, rfl⟩ | ⟨rfl, rfl⟩
    · rfl
    · exact Multiset.pair_comm _ _

/-- Membership of an unordered pair is stable under swapping its writing. -/
theorem mem_pair_swap {s : Multiset (Multiset ℤ)} {a b : ℤ}
    (h : ({a, b} : Multiset ℤ) ∈ s) : ({b, a} : Multiset ℤ) ∈ s := by
  rwa [Multiset.pair_comm]

/-- The values of two opposite slots form one of the cube's opposing pairs. -/
theorem mem_oppPairs_of_oppSlots (c : Cube) {i j : Fin 6} (hopp : oppSlots i j) :
    ({c i, c j} : Multiset ℤ) ∈ oppPairs c := by
  have hne := hopp.1
  have hax := hopp.2
  unfold oppPairs
  fin_cases i <;> fin_cases j
  · exact absurd rfl hne
  · exact Multiset.mem_cons_self _ _
  · exact absurd hax (by decide)
  · exact absurd hax (by decide)
  · exact absurd hax (by decide)
  · exact absurd hax (by decide)
  · exact mem_pair_swap (Multiset.mem_cons_self _ _)
  · exact absurd rfl hne
  · exact absurd hax (by decide)
  · exact absurd hax (by decide)
  · exact absurd hax (by decide)
  · exact absurd hax (by decide)
  · exact absurd hax (by decide)
  · exact absurd hax (by decide)
  · exact absurd rfl hne
  · exact Multiset.mem_cons_of_mem (Multiset.mem_cons_self _ _)
  · exact absurd hax (by decide)
  · exact absurd hax (by decide)
  · exact absurd hax (by decide)
  · exact absurd hax (by decide)
  · exact mem_pair_swap (Multiset.mem_cons_of_mem (Multiset.mem_cons_self _ _))
  · exact absurd rfl hne
  · exact absurd hax (by decide)
  · exact absurd hax (by decide)
  · exact absurd hax (by decide)
  · exact absurd hax (by decide)
  · exact absurd hax (by decide)
  · exact absurd hax (by decide)
  · exact absurd rfl hne
  · exact Multiset.mem_cons_of_mem
      (Multiset.mem_cons_of_mem (Multiset.mem_cons_self _ _))
  · exact absurd hax (by decide)
  · exact absurd hax (by decide)
  · exact absurd hax (by decide)
  · exact absurd hax (by decide)
  · exact mem_pair_swap (Multiset.mem_cons_of_mem
      (Multiset.mem_cons_of_mem (Multiset.mem_cons_self _ _)))
  · exact absurd rfl hne

/-- A cube with pairwise distinct faces has a duplicate-free face multiset. -/
theorem faceVals_nodup_of_injective {c : Cube} (hinj : Function.Injective c) :
    (faceVals c).Nodup :=
  Multiset.coe_nodup.mpr ((List.nodup_finRange 6).map hinj)

/-- On a cube with pairwise distinct faces, no rotation can bring two values
of opposite slots simultaneously to Front and Left: the breadth-first search
exhausts its queue and returns `None`. -/
theorem gvr_opposite_none {c : Cube} (hinj : Function.Injective c)
    {i j : Fin 6} (hopp : oppSlots i j) :
    get_valid_rotation c (c i) (c j) = none := by
  cases h : get_valid_rotation c (c i) (c j) with
  | none => rfl
  | some x =>
    exfalso
    obtain ⟨hx2, hx4, hxr⟩ := get_valid_rotation_some h
    have hnodx : (faceVals x).Nodup := by
      rw [hxr.faceVals_eq]
      exact faceVals_nodup_of_injective hinj
    have hlist : ([x 0, x 1, x 2, x 3, x 4, x 5] : List ℤ).Nodup := by
      rw [faceVals_eq_list] at hnodx
      exact Multiset.coe_nodup.mp hnodx
    simp only [List.nodup_cons, List.mem_cons, List.not_mem_nil, or_false,
      not_or, List.nodup_nil, and_true] at hlist
    obtain ⟨⟨h01, h02, h03, h04, h05⟩, ⟨h12, h13, h14, h15⟩,
      ⟨h23, h24, h25⟩, ⟨h34, h35⟩, h45⟩ := hlist
    have hpair : ({x 2, x 4} : Multiset ℤ) ∈ oppPairs x := by
      rw [hxr.oppPairs_eq, hx2, hx4]
      exact mem_oppPairs_of_oppSlots c hopp
    simp only [oppPairs, Multiset.insert_eq_cons, Multiset.mem_cons,
      Multiset.mem_singleton] at hpair
    rcases hpair with h | h | h
    · rcases pair_eq_pair.mp h with ⟨ha, _⟩ | ⟨_, hb⟩
      · exact h02 ha.symm
      · exact h04 hb.symm
    · rcases pair_eq_pair.mp h with ⟨_, hb⟩ | ⟨ha, _⟩
      · exact h34 hb.symm
      · exact h23 ha
    · rcases pair_eq_pair.mp h with ⟨ha, _⟩ | ⟨ha, _⟩
      · exact h24 ha
      · exact h25 ha

/-- The reporting loop on six-element inputs: it always returns six rows,
and each row is the `rowFor` outcome of the corresponding entries. -/
theorem reportRows_get {cubes : List Cube} {fronts lefts : List ℤ}
    (h6 : cubes.length = 6) (hf6 : fronts.length = 6) (hl6 : lefts.length = 6) :
    ∃ rows, reportRows cubes fronts lefts = some rows ∧ rows.length = 6 ∧
      ∀ m cm fm lm, cubes.get? m = some cm → fronts.get? m = some fm →
        lefts.get? m = some lm → rows.get? m = some (rowFor cm fm lm) := by
  obtain ⟨c1, c2, c3, c4, c5, c6, rfl⟩ := exists_six cubes h6
  obtain ⟨f1, f2, f3, f4, f5, f6, rfl⟩ := exists_six fronts hf6
  obtain ⟨l1, l2, l3, l4, l5, l6, rfl⟩ := exists_six lefts hl6
  refine ⟨_, reportRows_six c1 c2 c3 c4 c5 c6 f1 f2 f3 f4 f5 f6 l1 l2 l3 l4 l5 l6,
    rfl, ?_⟩
  intro m cm fm lm hcm hfm hlm
  match m with
  | 0 =>
    simp only [List.get?] at hcm hfm hlm ⊢
    rw [Option.some.inj hcm, Option.some.inj hfm, Option.some.inj hlm]
  | 1 =>
    simp only [List.get?] at hcm hfm hlm ⊢
    rw [Option.some.inj hcm, Option.some.inj hfm, Option.some.inj hlm]
  | 2 =>
    simp only [List.get?] at hcm hfm hlm ⊢
    rw [Option.some.inj hcm, Option.some.inj hfm, Option.some.inj hlm]
  | 3 =>
    simp only [List.get?] at hcm hfm hlm ⊢
    rw [Option.some.inj hcm, Option.some.inj hfm, Option.some.inj hlm]
  | 4 =>
    simp only [List.get?] at hcm hfm hlm ⊢
    rw [Option.some.inj hcm, Option.some.inj hfm, Option.some.inj hlm]
  | 5 =>
    simp only [List.get?] at hcm hfm hlm ⊢
    rw [Option.some.inj hcm, Option.some.inj hfm, Option.some.inj hlm]
  | n + 6 =>
    simp only [List.get?] at hcm
    exact absurd hcm (by simp)

/-- The 12 face values selected by a valid direction set are exactly the
multiset with each of 1..6 twice. -/
theorem valid_pairs_multiset {ps : List (ℤ × ℤ)} (hlen : ps.length = 6)
    (hcount : ∀ k : ℤ, k ∈ ([1, 2, 3, 4, 5, 6] : List ℤ) →
      (ps.flatMap fun p => [p.1, p.2]).count k = 2) :
    (↑(ps.flatMap fun p => [p.1, p.2]) : Multiset ℤ)
      = 2 • ({1, 2, 3, 4, 5, 6} : Finset ℤ).val := by
  obtain ⟨p1, p2, p3, p4, p5, p6, rfl⟩ := exists_six ps hlen
  set M : Multiset ℤ :=
    (↑([p1, p2, p3, p4, p5, p6].flatMap fun p => [p.1, p.2]) : Multiset ℤ) with hM
  set F : Finset ℤ := ({1, 2, 3, 4, 5, 6} : Finset ℤ) with hF
  have hcntS : ∀ a : ℤ, (2 • F.val).count a = if a ∈ F then 2 else 0 := by
    intro a
    rw [Multiset.count_nsmul]
    by_cases ha : a ∈ F
    · rw [if_pos ha, Multiset.count_eq_one_of_mem F.nodup ha]
    · rw [if_neg ha, Multiset.count_eq_zero.mpr ha, Nat.mul_zero]
  have hmemF : ∀ a : ℤ, a ∈ F ↔ a ∈ ([1, 2, 3, 4, 5, 6] : List ℤ) := by
    intro a
    rw [hF]
    simp
  have hle : 2 • F.val ≤ M := by
    rw [Multiset.le_iff_count]
    intro a
    rw [hcntS a]
    by_cases ha : a ∈ F
    · rw [if_pos ha, Multiset.coe_count, hcount a ((hmemF a).mp ha)]
    · rw [if_neg ha]
      exact Nat.zero_le _
  have hcards : Multiset.card M ≤ Multiset.card (2 • F.val) := by
    rw [Multiset.card_nsmul]
    rw [show Multiset.card M = 12 from rfl]
    rw [show F.val.card = 6 by decide]
  exact (Multiset.eq_of_le_of_card_le hle hcards).symm

/-- Hall-style conclusion: a valid direction set always admits a flip tuple
whose six primary values are pairwise distinct.  This is why the reference
solver never sees an empty orientation resolution. -/
theorem exists_distinct_primary {ps : List (ℤ × ℤ)} (hlen : ps.length = 6)
    (hcount : ∀ k : ℤ, k ∈ ([1, 2, 3, 4, 5, 6] : List ℤ) →
      (ps.flatMap fun p => [p.1, p.2]).count k = 2) :
    ∃ flips ∈ flipTuples, distinct6B (primary ps flips) = true := by
  have hM := valid_pairs_multiset hlen hcount
  set M : Multiset ℤ := (↑(ps.flatMap fun p => [p.1, p.2]) : Multiset ℤ) with hMdef
  have hcount_le : ∀ a : ℤ, M.count a ≤ 2 := by
    intro a
    rw [hM, Multiset.count_nsmul]
    have : ({1, 2, 3, 4, 5, 6} : Finset ℤ).val.count a ≤ 1 :=
      Multiset.nodup_iff_count_le_one.mp ({1, 2, 3, 4, 5, 6} : Finset ℤ).nodup a
    omega
  set t : Fin 6 → Finset ℤ :=
    fun i => {(ps.getD i.val (0, 0)).1, (ps.getD i.val (0, 0)).2} with ht
  have hMsum : M = ∑ i : Fin 6,
      ({(ps.getD i.val (0, 0)).1, (ps.getD i.val (0, 0)).2} : Multiset ℤ) := by
    obtain ⟨p1, p2, p3, p4, p5, p6, rfl⟩ := exists_six ps hlen
    rw [Fin.sum_univ_six]
    rfl
  have hall : ∀ s : Finset (Fin 6), s.card ≤ (s.biUnion t).card := by
    intro s
    set Ms : Multiset ℤ := ∑ i ∈ s,
      ({(ps.getD i.val (0, 0)).1, (ps.getD i.val (0, 0)).2} : Multiset ℤ) with hMs
    have hcardMs : Multiset.card Ms = 2 * s.card := by
      rw [hMs, map_sum Multiset.card]
      rw [Finset.sum_congr rfl
        (fun i _ => show Multiset.card {(ps.getD i.val (0, 0)).1,
          (ps.getD i.val (0, 0)).2} = 2 by simp)]
      rw [Finset.sum_const, smul_eq_mul, Nat.mul_comm]
    have hMsle : Ms ≤ M := by
      rw [hMsum, hMs]
      exact Finset.sum_le_sum_of_subset (Finset.subset_univ s)
    have hMscnt : ∀ a : ℤ, Ms.count a ≤ 2 :=
      fun a => le_trans (Multiset.le_iff_count.mp hMsle a) (hcount_le a)
    have hsub : Ms.toFinset ⊆ s.biUnion t := by
      intro v hv
      obtain ⟨i, hi, hvi⟩ := Multiset.mem_sum.mp (Multiset.mem_toFinset.mp hv)
      refine Finset.mem_biUnion.mpr ⟨i, hi, ?_⟩
      rw [ht]
      simp only [Finset.mem_insert, Finset.mem_singleton]
      simpa using hvi
    have hchain : 2 * s.card ≤ 2 * (s.biUnion t).card := by
      calc 2 * s.card = Multiset.card Ms := hcardMs.symm
        _ = ∑ a ∈ Ms.toFinset, Ms.count a := (Multiset.toFinset_sum_count_eq Ms).symm
        _ ≤ ∑ _a ∈ Ms.toFinset, 2 := Finset.sum_le_sum (fun a _ => hMscnt a)
        _ = Ms.toFinset.card * 2 := by rw [Finset.sum_const, smul_eq_mul]
        _ ≤ (s.biUnion t).card * 2 :=
          Nat.mul_le_mul_right 2 (Finset.card_le_card hsub)
        _ = 2 * (s.biUnion t).card := Nat.mul_comm _ _
    omega
  obtain ⟨f, hfinj, hft⟩ :=
    (Finset.all_card_le_biUnion_card_iff_exists_injective t).mp hall
  refine ⟨(List.range 6).map fun k =>
    if f ⟨k % 6, Nat.mod_lt _ (by omega)⟩ = (ps.getD k (0, 0)).1 then 0 else 1, ?_, ?_⟩
  · refine mem_productR.mpr ⟨by simp, ?_⟩
    intro x hx
    obtain ⟨k, _, rfl⟩ := List.mem_map.mp hx
    by_cases hc : f ⟨k % 6, Nat.mod_lt _ (by omega)⟩ = (ps.getD k (0, 0)).1
    · rw [if_pos hc]; simp
    · rw [if_neg hc]; simp
  · have hprim : primary ps ((List.range 6).map fun k =>
        if f ⟨k % 6, Nat.mod_lt _ (by omega)⟩ = (ps.getD k (0, 0)).1 then 0 else 1)
        = (List.range 6).map fun k => f ⟨k % 6, Nat.mod_lt _ (by omega)⟩ := by
      unfold primary
      refine List.map_congr_left ?_
      intro k hk
      have hk6 : k < 6 := List.mem_range.mp hk
      have hflip : (((List.range 6).map fun k =>
          if f ⟨k % 6, Nat.mod_lt _ (by omega)⟩ = (ps.getD k (0, 0)).1 then 0
          else 1) : List ℕ).getD k 0
          = if f ⟨k % 6, Nat.mod_lt _ (by omega)⟩ = (ps.getD k (0, 0)).1 then 0
            else 1 := by
        show ((((List.range 6).map _).get? k).getD 0 : ℕ) = _
        rw [List.get?_map, List.get?_range hk6]
        rfl
      rw [hflip]
      have hmem := hft ⟨k % 6, Nat.mod_lt _ (by omega)⟩
      rw [ht] at hmem
      simp only [Finset.mem_insert, Finset.mem_singleton] at hmem
      have hkmod : k % 6 = k := Nat.mod_eq_of_lt hk6
      by_cases hc : f ⟨k % 6, Nat.mod_lt _ (by omega)⟩ = (ps.getD k (0, 0)).1
      · rw [if_pos hc]
        unfold tupGet
        rw [if_pos rfl]
        exact hc.symm
      · rw [if_neg hc]
        unfold tupGet
        rw [if_neg (by omega)]
        rcases hmem with h | h
        · simp only [hkmod] at h hc
          exact absurd h hc
        · simp only [hkmod] at h ⊢
          exact h.symm
    rw [hprim]
    unfold distinct6B
    have hnd : ((List.range 6).map fun k =>
        f ⟨k % 6, Nat.mod_lt _ (by omega)⟩).Nodup := by
      refine List.Nodup.map_on ?_ (List.nodup_range 6)
      intro k1 hk1 k2 hk2 heq
      have h1 : k1 < 6 := List.mem_range.mp hk1
      have h2 : k2 < 6 := List.mem_range.mp hk2
      have := hfinj heq
      have := Fin.mk.injEq _ _ _ _ ▸ this
      omega
    rw [List.dedup_eq_self.mpr hnd]
    simp

/-- A successful `find?` returns the first satisfying element: everything before it fails
the test. -/
theorem find?_first {α : Type} {p : α → Bool} :
    ∀ {l : List α} {a : α}, l.find? p = some a →
      ∃ l1 l2, l = l1 ++ a :: l2 ∧ (∀ x ∈ l1, p x = false) ∧ p a = true := by
  intro l
  induction l with
  | nil => intro a h; exact absurd h (by simp)
  | cons b l ih =>
    intro a h
    rw [List.find?_cons] at h
    cases hpb : p b with
    | true =>
      rw [hpb] at h
      have : b = a := Option.some.inj h
      subst this
      exact ⟨[], l, rfl, by intro x hx; exact absurd hx (List.not_mem_nil x), hpb⟩
    | false =>
      rw [hpb] at h
      obtain ⟨l1, l2, rfl, hl1, hpa⟩ := ih h
      refine ⟨b :: l1, l2, rfl, ?_, hpa⟩
      intro x hx
      rcases List.mem_cons.mp hx with rfl | hx
      · exact hpb
      · exact hl1 x hx

/-- A cons-shaped `filterMap` output comes from a first hit: everything
before the witness maps to `none`. -/
theorem filterMap_eq_cons_first {α β : Type} {F : α → Option β} :
    ∀ {l : List α} {b : β} {bs : List β}, l.filterMap F = b :: bs →
      ∃ l1 a l2, l = l1 ++ a :: l2 ∧ (∀ x ∈ l1, F x = none) ∧ F a = some b := by
  intro l
  induction l with
  | nil => intro b bs h; exact absurd h (by simp)
  | cons a l ih =>
    intro b bs h
    rw [List.filterMap_cons] at h
    cases hFa : F a with
    | none =>
      rw [hFa] at h
      obtain ⟨l1, a', l2, rfl, hl1, hFa'⟩ := ih h
      refine ⟨a :: l1, a', l2, rfl, ?_, hFa'⟩
      intro x hx
      rcases List.mem_cons.mp hx with rfl | hx
      · exact hFa
      · exact hl1 x hx
    | some b' =>
      rw [hFa] at h
      have hb : b' = b := (List.cons.injEq _ _ _ _ ▸ h).1
      subst hb
      exact ⟨[], a, l, rfl, by intro x hx; exact absurd hx (List.not_mem_nil x), hFa⟩

/-- Membership in the scan-order index-pair list: outer index strictly less
than inner index, inner below the bound. -/
theorem mem_idxPairs {n : ℕ} {p : ℕ × ℕ} :
    p ∈ idxPairs n ↔ p.1 < p.2 ∧ p.2 < n := by
  unfold idxPairs
  rw [List.mem_flatMap]
  constructor
  · rintro ⟨i, hi, hp⟩
    obtain ⟨j, hj, rfl⟩ := List.mem_map.mp hp
    rw [List.mem_drop_iff_getElem] at hj
    obtain ⟨m, hm, rfl⟩ := hj
    simp only [List.getElem_range] at *
    simp only [List.length_drop, List.length_range] at hm
    constructor
    · omega
    · omega
  · rintro ⟨h1, h2⟩
    refine ⟨p.1, List.mem_range.mpr (by omega), ?_⟩
    refine List.mem_map.mpr ⟨p.2, ?_, rfl⟩
    rw [List.mem_drop_iff_getElem]
    refine ⟨p.2 - (p.1 + 1), ?_, ?_⟩
    · simp only [List.length_drop, List.length_range]
      omega
    · simp only [List.getElem_range]
      omega

/-- Variant of `getD` membership for in-range indices. -/
theorem getD_mem {α : Type} {l : List α} {i : ℕ} (h : i < l.length) (d : α) :
    l.getD i d ∈ l := by
  rw [show l.getD i d = (l.get? i).getD d from rfl, List.get?_eq_get h]
  exact List.get_mem l _ _

/-- The acceptance test of the direction-set enumeration, in propositional
form: each value 1..6 occurs exactly twice among the 12 selected values. -/
theorem validIndicesB_iff {cubes : List Cube} {idx : List ℕ} :
    validIndicesB cubes idx = true ↔
      ∀ k : ℤ, k ∈ ([1, 2, 3, 4, 5, 6] : List ℤ) →
        (all_numbers cubes idx).count k = 2 := by
  unfold validIndicesB
  rw [List.all_eq_true]
  constructor
  · intro h k hk
    simpa using h k hk
  · intro h k hk
    simpa using h k hk

/-- What membership in `valid_configs` gives: an accepted choice tuple from
the enumeration, with its selected pairs. -/
theorem mem_valid_configs {cubes : List Cube} {cfg : Config}
    (h : cfg ∈ valid_configs cubes) :
    cfg.axes ∈ indicesList ∧ validIndicesB cubes cfg.axes = true ∧
      cfg.pairs = selected_pairs cubes cfg.axes := by
  unfold valid_configs at h
  obtain ⟨idx, hidx, rfl⟩ := List.mem_map.mp h
  obtain ⟨hmem, hvalid⟩ := List.mem_filter.mp hidx
  exact ⟨hmem, hvalid, rfl⟩

/-- The selected pairs of a six-entry choice tuple form a six-entry list. -/
theorem selected_pairs_length {cubes : List Cube} {idx : List ℕ}
    (h : idx.length = 6) : (selected_pairs cubes idx).length = 6 := by
  unfold selected_pairs
  rw [List.length_map, List.enum_length]
  exact h

/-- What membership in `solutions` gives: two valid direction sets, in-range
scan indices, and a collision-free axis pairing. -/
theorem mem_solutions {cubes : List Cube} {s : Config × Config}
    (h : s ∈ solutions cubes) :
    s.1 ∈ valid_configs cubes ∧ s.2 ∈ valid_configs cubes ∧
      collide s.1.axes s.2.axes = false := by
  unfold solutions at h
  obtain ⟨ij, hij, hs⟩ := List.mem_filterMap.mp h
  simp only [] at hs
  by_cases hcol : collide ((valid_configs cubes).getD ij.1 ⟨[], []⟩).axes
      ((valid_configs cubes).getD ij.2 ⟨[], []⟩).axes
  · rw [if_pos hcol] at hs
    exact absurd hs (by simp)
  · rw [if_neg hcol] at hs
    obtain ⟨hij1, hij2⟩ := mem_idxPairs.mp hij
    have h1 : ij.1 < (valid_configs cubes).length := by omega
    have h2 : ij.2 < (valid_configs cubes).length := hij2
    have hs' := Option.some.inj hs
    subst hs'
    refine ⟨getD_mem h1 _, getD_mem h2 _, by simpa using hcol⟩

/-- The collision test in propositional form. -/
theorem collide_eq_false_iff {a1 a2 : List ℕ} :
    collide a1 a2 = false ↔ ∀ k, k < 6 → a1.getD k 0 ≠ a2.getD k 0 := by
  unfold collide
  rw [List.any_eq_false]
  constructor
  · intro h k hk
    have := h k (List.mem_range.mpr hk)
    simpa using this
  · intro h k hk
    simpa using h k (List.mem_range.mp hk)

/-- On a valid direction set's pairs the orientation resolution never fails:
it returns a six-value sequence. -/
theorem resolve_orientation_length_of_valid {ps : List (ℤ × ℤ)}
    (hlen : ps.length = 6)
    (hcount : ∀ k : ℤ, k ∈ ([1, 2, 3, 4, 5, 6] : List ℤ) →
      (ps.flatMap fun p => [p.1, p.2]).count k = 2) :
    (resolve_orientation ps).length = 6 := by
  obtain ⟨fl, hmem, hfl⟩ := exists_distinct_primary hlen hcount
  unfold resolve_orientation
  cases hfind : flipTuples.find? (fun f => distinct6B (primary ps f)) with
  | none => exact absurd hfl (List.find?_eq_none.mp hfind fl hmem)
  | some fl2 =>
    show (primary ps fl2).length = 6
    unfold primary
    rw [List.length_map, List.length_range]

/-- The count condition carried by a valid direction set, stated on its
stored pairs. -/
theorem config_pairs_count {cubes : List Cube} {cfg : Config}
    (h : cfg ∈ valid_configs cubes) :
    cfg.pairs.length = 6 ∧
      ∀ k : ℤ, k ∈ ([1, 2, 3, 4, 5, 6] : List ℤ) →
        (cfg.pairs.flatMap fun p => [p.1, p.2]).count k = 2 := by
  obtain ⟨hax, hvalid, hpairs⟩ := mem_valid_configs h
  have hlen6 : cfg.axes.length = 6 := (mem_productR.mp hax).1
  refine ⟨by rw [hpairs]; exact selected_pairs_length hlen6, ?_⟩
  intro k hk
  have := validIndicesB_iff.mp hvalid k hk
  rw [hpairs]
  exact this

/-- Whenever six cubes are supplied, the solver finishes with a genuine
report — `NO SOLUTION FOUND` or a six-row table — never an uncaught
`IndexError`: the orientation resolutions of the chosen direction sets are
always six values long, so every index access of the reporting loop is in
range. -/
theorem solve_never_crash {cubes : List Cube} (h6 : cubes.length = 6) :
    solve_specific_format cubes ≠ Report.crash := by
  unfold solve_specific_format
  cases hsol : solutions cubes with
  | nil => simp
  | cons s rest =>
    have hmem : s ∈ solutions cubes := by
      rw [hsol]
      exact List.mem_cons_self _ _
    obtain ⟨hv1, hv2, _⟩ := mem_solutions hmem
    obtain ⟨hlen1, hcount1⟩ := config_pairs_count hv1
    obtain ⟨hlen2, hcount2⟩ := config_pairs_count hv2
    have hres1 := resolve_orientation_length_of_valid hlen1 hcount1
    have hres2 := resolve_orientation_length_of_valid hlen2 hcount2
    obtain ⟨rows, hrows, _, _⟩ := reportRows_get h6 hres1 hres2
    simp only [hrows]
    simp

/-- A successful orientation resolution of a valid direction set is a
duplicate-free list and a permutation of 1..6. -/
theorem resolve_perm {ps : List (ℤ × ℤ)} (hlen : ps.length = 6)
    (hcount : ∀ k : ℤ, k ∈ ([1, 2, 3, 4, 5, 6] : List ℤ) →
      (ps.flatMap fun p => [p.1, p.2]).count k = 2)
    {flips : List ℕ}
    (hfind : flipTuples.find? (fun fl => distinct6B (primary ps fl)) = some flips) :
    (primary ps flips).Nodup ∧ (primary ps flips).Perm [1, 2, 3, 4, 5, 6] := by
  have hp : distinct6B (primary ps flips) = true := by
    have hfs := List.find?_some hfind
    simpa using hfs
  set r := primary ps flips with hr
  have hrlen : r.length = 6 := by
    rw [hr]
    unfold primary
    rw [List.length_map, List.length_range]
  have hded : r.dedup.length = 6 := by
    unfold distinct6B at hp
    simpa using hp
  have hdedeq : r.dedup = r :=
    List.Sublist.eq_of_length (List.dedup_sublist r) (by omega)
  have hnd : r.Nodup := List.dedup_eq_self.mp hdedeq
  refine ⟨hnd, ?_⟩
  have hM := valid_pairs_multiset hlen hcount
  have hmem : ∀ v ∈ r, v ∈ ({1, 2, 3, 4, 5, 6} : Finset ℤ) := by
    intro v hv
    rw [hr] at hv
    unfold primary at hv
    obtain ⟨k, hk, rfl⟩ := List.mem_map.mp hv
    have hk6 : k < 6 := List.mem_range.mp hk
    have hvin : tupGet (ps.getD k (0, 0)) (flips.getD k 0)
        ∈ (↑(ps.flatMap fun p => [p.1, p.2]) : Multiset ℤ) := by
      have hpsmem : ps.getD k (0, 0) ∈ ps := getD_mem (by omega) _
      have hin2 : tupGet (ps.getD k (0, 0)) (flips.getD k 0)
          ∈ [(ps.getD k (0, 0)).1, (ps.getD k (0, 0)).2] := by
        unfold tupGet
        split_ifs <;> simp
      rw [Multiset.mem_coe, List.mem_flatMap]
      exact ⟨ps.getD k (0, 0), hpsmem, hin2⟩
    rw [hM] at hvin
    exact (Multiset.mem_nsmul.mp hvin).2
  have hsub : r.toFinset ⊆ ({1, 2, 3, 4, 5, 6} : Finset ℤ) :=
    fun v hv => hmem v (List.mem_toFinset.mp hv)
  have hcard : ({1, 2, 3, 4, 5, 6} : Finset ℤ).card ≤ r.toFinset.card := by
    rw [List.toFinset_card_of_nodup hnd, hrlen]
    decide
  have heq : r.toFinset = ({1, 2, 3, 4, 5, 6} : Finset ℤ) :=
    Finset.eq_of_subset_of_card_le hsub hcard
  rw [← Multiset.coe_eq_coe]
  have h1 : (↑r : Multiset ℤ) = r.toFinset.val := by
    rw [show (r.toFinset : Finset ℤ) = (↑r : Multiset ℤ).toFinset from rfl,
      Multiset.toFinset_val]
    rw [show ((↑r : Multiset ℤ).dedup : Multiset ℤ) = (↑r.dedup : Multiset ℤ) from rfl]
    rw [hdedeq]
  rw [h1, heq]
  decide

/-- C8: for every well-formed 6-tuple cube, pair extraction totally returns
exactly 3 unordered pairs taken from the fixed slot groups (Top,Bottom),
(Front,Back), (Left,Right) of the original orientation, and the 6 values of
those 3 pairs are exactly the cube's 6 original face values, each slot's
value appearing once. -/
theorem claimC8 (c : Cube) :
    (extract_pairs c).length = 3 ∧
    (∃ p1 p2 p3, extract_pairs c = [p1, p2, p3] ∧
      ({p1.1, p1.2} : Multiset ℤ) = {c 0, c 1} ∧
      ({p2.1, p2.2} : Multiset ℤ) = {c 2, c 3} ∧
      ({p3.1, p3.2} : Multiset ℤ) = {c 4, c 5}) ∧
    (↑((extract_pairs c).flatMap fun p => [p.1, p.2]) : Multiset ℤ) = faceVals c := by
  refine ⟨rfl, ⟨_, _, _, rfl, sortPair_pair _ _, sortPair_pair _ _, sortPair_pair _ _⟩, ?_⟩
  calc (↑((extract_pairs c).flatMap fun p => [p.1, p.2]) : Multiset ℤ)
      = ({(sortPair (c 0) (c 1)).1, (sortPair (c 0) (c 1)).2} : Multiset ℤ)
        + {(sortPair (c 2) (c 3)).1, (sortPair (c 2) (c 3)).2}
        + {(sortPair (c 4) (c 5)).1, (sortPair (c 4) (c 5)).2} := rfl
    _ = ({c 0, c 1} : Multiset ℤ) + {c 2, c 3} + {c 4, c 5} := by
        rw [sortPair_pair (c 0) (c 1), sortPair_pair (c 2) (c 3),
          sortPair_pair (c 4) (c 5)]
    _ = faceVals c := rfl

/-- C9: the opposing-pair decomposition is rotation-invariant: applying any
of the three generators (and hence any composition of them) leaves the
multiset of the three unordered opposite-slot value pairs unchanged. -/
theorem claimC9 (c : Cube) :
    oppPairs (pitch c) = oppPairs c ∧ oppPairs (yaw c) = oppPairs c ∧
      oppPairs (roll c) = oppPairs c ∧
      ∀ x, Reach c x → oppPairs x = oppPairs c :=
  ⟨oppPairs_pitch c, oppPairs_yaw c, oppPairs_roll c, fun _ h => h.oppPairs_eq⟩

/-- C10: identity shortcut — if the Front slot already equals `target_front`
and the Left slot already equals `target_left`, `get_valid_rotation` returns
the input cube unchanged, because the starting state is tested before any
generator is applied. -/
theorem claimC10 (c : Cube) (target_front target_left : ℤ)
    (h2 : c 2 = target_front) (h4 : c 4 = target_left) :
    get_valid_rotation c target_front target_left = some c := by
  unfold get_valid_rotation
  have hb : bfsAux target_front target_left bfsFuel [c] ∅
      = some (some c, insert c ∅) := by
    show bfsAux target_front target_left (73 + 1) [c] ∅ = some (some c, insert c ∅)
    rw [bfsAux]
    rw [if_neg (Finset.not_mem_empty c)]
    simp only []
    rw [if_pos ⟨h2, h4⟩]
  rw [hb]

/-- Witness for C10 at the first cube of the source input. -/
theorem claimC10_witness :
    get_valid_rotation ![4, 1, 2, 5, 6, 3] 2 6 = some ![4, 1, 2, 5, 6, 3] :=
  claimC10 ![4, 1, 2, 5, 6, 3] 2 6 rfl rfl

/-- C5: for every input cube and targets, the breadth-first exploration
terminates within its fuel, its `seen` set holds at most 24 distinct states,
and it returns either a matching reachable state or `None` only after no
reachable state matches. -/
theorem claimC5 (c : Cube) (tf tl : ℤ) :
    ∃ r sF, bfsAux tf tl bfsFuel [c] ∅ = some (r, sF) ∧
      get_valid_rotation c tf tl = r ∧
      sF.card ≤ 24 ∧
      (∀ x, r = some x → (x 2 = tf ∧ x 4 = tl) ∧ Reach c x) ∧
      (r = none → ∀ x, Reach c x → ¬(x 2 = tf ∧ x 4 = tl)) := by
  have hs := bfs_run_isSome c tf tl
  obtain ⟨p, hp⟩ := Option.isSome_iff_exists.mp hs
  obtain ⟨r, sF⟩ := p
  have hq : ∀ y ∈ [c], Reach c y := by
    intro y hy
    rw [List.mem_singleton.mp hy]
    exact Reach.refl
  have hseen0 : ∀ y ∈ (∅ : Finset Cube), y ∈ orbit24 c :=
    fun y hy => absurd hy (Finset.not_mem_empty y)
  refine ⟨r, sF, hp, ?_, ?_, ?_, ?_⟩
  · unfold get_valid_rotation
    rw [hp]
  · exact card_le_24_of_orbit (bfsAux_seen_orbit bfsFuel [c] ∅ hq hseen0 hp)
  · intro x hx
    rw [hx] at hp
    obtain ⟨h1, h2, h3⟩ := bfsAux_found bfsFuel [c] ∅ hq hp
    exact ⟨⟨h1, h2⟩, h3⟩
  · intro hr x hxr
    rw [hr] at hp
    refine bfsAux_none_complete bfsFuel [c] ∅ hq hseen0 ?_ ?_ ?_ hp x hxr
    · intro y hy
      exact absurd hy (Finset.not_mem_empty y)
    · exact Or.inr fun y hy => absurd hy (Finset.not_mem_empty y)
    · exact Or.inr (List.mem_singleton.mpr rfl)

/-- C1: on a cube with pairwise distinct faces, for any two values lying on
adjacent (non-opposite) slots, `get_valid_rotation` returns a state that is
a permutation of the cube's face values, whose Front is the first target and
Left the second, and which is reachable from the input by composing the
generators (hence one of the 24 table orientations). -/
theorem claimC1 (c : Cube) (hinj : Function.Injective c) (i j : Fin 6)
    (hadj : adjSlots i j) :
    ∃ x, get_valid_rotation c (c i) (c j) = some x ∧
      faceVals x = faceVals c ∧ x 2 = c i ∧ x 4 = c j ∧
      Reach c x ∧ x ∈ orbit24 c := by
  obtain ⟨w, hwreach, hw2, hw4⟩ := exists_reach_front_left c i j hadj
  cases h : get_valid_rotation c (c i) (c j) with
  | none => exact absurd ⟨hw2, hw4⟩ (get_valid_rotation_none h w hwreach)
  | some x =>
    obtain ⟨hx2, hx4, hxr⟩ := get_valid_rotation_some h
    exact ⟨x, rfl, hxr.faceVals_eq, hx2, hx4, hxr, hxr.mem_orbit24⟩

/-- Witness for C1: the cube `[1,2,3,4,5,6]` with the adjacent value pair
`(4, 1)` (Back and Top slots). -/
theorem claimC1_witness :
    Function.Injective (![1, 2, 3, 4, 5, 6] : Cube) ∧ adjSlots 3 0 ∧
    ∃ x, get_valid_rotation ![1, 2, 3, 4, 5, 6] ((![1, 2, 3, 4, 5, 6] : Cube) 3)
        ((![1, 2, 3, 4, 5, 6] : Cube) 0) = some x ∧
      faceVals x = faceVals ![1, 2, 3, 4, 5, 6] ∧
      x 2 = (![1, 2, 3, 4, 5, 6] : Cube) 3 ∧ x 4 = (![1, 2, 3, 4, 5, 6] : Cube) 0 ∧
      Reach ![1, 2, 3, 4, 5, 6] x ∧ x ∈ orbit24 ![1, 2, 3, 4, 5, 6] :=
  ⟨by decide, by decide, claimC1 ![1, 2, 3, 4, 5, 6] (by decide) 3 0 (by decide)⟩

/-- C6: on a cube with pairwise distinct faces, two values from opposite
slots can never be Front and Left simultaneously: `get_valid_rotation`
returns `None`, and the reporting loop prints the per-cube error marker for
that cube while all six rows are still produced. -/
theorem claimC6 (cubes : List Cube) (fronts lefts : List ℤ) (k : ℕ) (c : Cube)
    (h6 : cubes.length = 6)
    (hf6 : fronts.length = 6) (hl6 : lefts.length = 6)
    (hck : cubes.get? k = some c)
    (hinj : Function.Injective c) (i j : Fin 6) (hopp : oppSlots i j)
    (hfk : fronts.get? k = some (c i)) (hlk : lefts.get? k = some (c j)) :
    get_valid_rotation c (c i) (c j) = none ∧
    ∃ rows, reportRows cubes fronts lefts = some rows ∧ rows.length = 6 ∧
      rows.get? k = some (Row.geomError (c i) (c j)) ∧
      ∀ m cm fm lm, cubes.get? m = some cm → fronts.get? m = some fm →
        lefts.get? m = some lm → rows.get? m = some (rowFor cm fm lm) := by
  have hnone := gvr_opposite_none hinj hopp
  obtain ⟨rows, hrows, hrl, hspec⟩ := reportRows_get h6 hf6 hl6
  refine ⟨hnone, rows, hrows, hrl, ?_, hspec⟩
  have hrk := hspec k c (c i) (c j) hck hfk hlk
  rw [hrk]
  unfold rowFor
  rw [hnone]

/-- Witness for C6: the first source cube with its Front/Back values 2 and 5
as targets, inside the six-cube source input. -/
theorem claimC6_witness :
    get_valid_rotation ![4, 1, 2, 5, 6, 3] ((![4, 1, 2, 5, 6, 3] : Cube) 2)
        ((![4, 1, 2, 5, 6, 3] : Cube) 3) = none ∧
    ∃ rows, reportRows my_cubes [2, 0, 0, 0, 0, 0] [5, 0, 0, 0, 0, 0] = some rows ∧
      rows.length = 6 ∧
      rows.get? 0 = some (Row.geomError ((![4, 1, 2, 5, 6, 3] : Cube) 2)
        ((![4, 1, 2, 5, 6, 3] : Cube) 3)) ∧
      ∀ m cm fm lm, my_cubes.get? m = some cm →
        ([2, 0, 0, 0, 0, 0] : List ℤ).get? m = some fm →
        ([5, 0, 0, 0, 0, 0] : List ℤ).get? m = some lm →
        rows.get? m = some (rowFor cm fm lm) :=
  claimC6 my_cubes [2, 0, 0, 0, 0, 0] [5, 0, 0, 0, 0, 0] 0 ![4, 1, 2, 5, 6, 3]
    rfl rfl rfl rfl (by decide) 2 3 (by decide) rfl rfl

/-- C2, counterexample: the reporting loop does NOT handle an empty
resolution — handed the empty lists that `resolve_orientation` would
propagate on failure, its very first index access `final_fronts[0]` is out
of range (`none` = an uncaught `IndexError`), on the concrete six-cube
source input. -/
theorem claimC2_counterexample :
    reportRows my_cubes ([] : List ℤ) ([] : List ℤ) = none := rfl

/-- C2, amended: the reporting loop would crash on an empty resolution, but
an empty resolution never reaches it — every direction set chosen by the
solver is valid, and a valid direction set always admits a chirality
assignment with 6 distinct primary values (Hall's condition), so
`resolve_orientation` returns six values and `solve_specific_format`
finishes with a real report on every six-cube input. -/
theorem claimC2_amended (cubes : List Cube) (h6 : cubes.length = 6) :
    (∀ s ∈ solutions cubes, (resolve_orientation s.1.pairs).length = 6 ∧
      (resolve_orientation s.2.pairs).length = 6) ∧
    solve_specific_format cubes ≠ Report.crash := by
  refine ⟨?_, solve_never_crash h6⟩
  intro s hmem
  obtain ⟨hv1, hv2, _⟩ := mem_solutions hmem
  obtain ⟨hlen1, hcount1⟩ := config_pairs_count hv1
  obtain ⟨hlen2, hcount2⟩ := config_pairs_count hv2
  exact ⟨resolve_orientation_length_of_valid hlen1 hcount1,
    resolve_orientation_length_of_valid hlen2 hcount2⟩

/-- Witness for the amended C2 at the concrete six-cube source input. -/
theorem claimC2_amended_witness :
    (∀ s ∈ solutions my_cubes, (resolve_orientation s.1.pairs).length = 6 ∧
      (resolve_orientation s.2.pairs).length = 6) ∧
    solve_specific_format my_cubes ≠ Report.crash :=
  claimC2_amended my_cubes rfl

/-- C3: the direction-set enumeration walks the full Cartesian product of
per-cube pair-slot choices — 729 six-entry tuples over {0,1,2}, in strictly
increasing lexicographic order — and accepts a tuple exactly when each value
1..6 occurs twice among the 12 selected face values; the accepted list keeps
the enumeration order. -/
theorem claimC3 (cubes : List Cube) :
    indicesList.length = 729 ∧
    List.Pairwise (List.Lex (· < ·)) indicesList ∧
    (∀ l : List ℕ, l ∈ indicesList ↔
      (l.length = 6 ∧ ∀ x ∈ l, x ∈ ([0, 1, 2] : List ℕ))) ∧
    (valid_configs cubes).map Config.axes = indicesList.filter (validIndicesB cubes) ∧
    (∀ idx : List ℕ, validIndicesB cubes idx = true ↔
      ∀ k : ℤ, k ∈ ([1, 2, 3, 4, 5, 6] : List ℤ) →
        (all_numbers cubes idx).count k = 2) ∧
    List.Pairwise (List.Lex (· < ·)) ((valid_configs cubes).map Config.axes) := by
  have hsort := productR_sorted_lex (show List.Sorted (· < ·) [0, 1, 2] by decide) 6
  have haxes : (valid_configs cubes).map Config.axes
      = indicesList.filter (validIndicesB cubes) := by
    unfold valid_configs
    rw [List.map_map]
    rw [show (Config.axes ∘ fun idx => (⟨idx, selected_pairs cubes idx⟩ : Config))
      = id from rfl]
    exact List.map_id _
  refine ⟨by decide, hsort, fun l => mem_productR, haxes, fun idx => validIndicesB_iff, ?_⟩
  rw [haxes]
  exact List.Pairwise.sublist (List.filter_sublist _) hsort

/-- C4: the compatible-pair search scans exactly the index pairs with outer
index strictly below inner index; every accepted pair of direction sets has
no shared axis choice at any cube position; without a compatible pair the
solver reports `NO SOLUTION FOUND`; and the pair the solver proceeds with
is the first non-colliding pair in scan order. -/
theorem claimC4 (cubes : List Cube) :
    (∀ p : ℕ × ℕ, p ∈ idxPairs (valid_configs cubes).length ↔
      p.1 < p.2 ∧ p.2 < (valid_configs cubes).length) ∧
    (∀ s ∈ solutions cubes, ∀ k, k < 6 → s.1.axes.getD k 0 ≠ s.2.axes.getD k 0) ∧
    (solutions cubes = [] →
      solve_specific_format cubes = Report.noSolution (valid_configs cubes).length) ∧
    (∀ s rest, solutions cubes = s :: rest →
      ∃ i j l1 l2, idxPairs (valid_configs cubes).length = l1 ++ (i, j) :: l2 ∧
        s = ((valid_configs cubes).getD i ⟨[], []⟩,
          (valid_configs cubes).getD j ⟨[], []⟩) ∧
        collide ((valid_configs cubes).getD i ⟨[], []⟩).axes
          ((valid_configs cubes).getD j ⟨[], []⟩).axes = false ∧
        ∀ q ∈ l1, collide ((valid_configs cubes).getD q.1 ⟨[], []⟩).axes
          ((valid_configs cubes).getD q.2 ⟨[], []⟩).axes = true) := by
  refine ⟨fun p => mem_idxPairs, ?_, ?_, ?_⟩
  · intro s hs k hk
    obtain ⟨_, _, hcol⟩ := mem_solutions hs
    exact collide_eq_false_iff.mp hcol k hk
  · intro h
    unfold solve_specific_format
    simp only [h]
  · intro s rest h
    unfold solutions at h
    obtain ⟨l1, ij, l2, hsplit, hl1, hF⟩ := filterMap_eq_cons_first h
    obtain ⟨i, j⟩ := ij
    simp only [] at hF
    by_cases hcol : collide ((valid_configs cubes).getD i ⟨[], []⟩).axes
        ((valid_configs cubes).getD j ⟨[], []⟩).axes
    · rw [if_pos hcol] at hF
      exact absurd hF (by simp)
    · rw [if_neg hcol] at hF
      refine ⟨i, j, l1, l2, hsplit, (Option.some.inj hF).symm,
        by simpa using hcol, ?_⟩
      intro q hq
      have hqnone := hl1 q hq
      simp only [] at hqnone
      by_cases hq2 : collide ((valid_configs cubes).getD q.1 ⟨[], []⟩).axes
          ((valid_configs cubes).getD q.2 ⟨[], []⟩).axes
      · exact hq2
      · rw [if_neg hq2] at hqnone
        exact absurd hqnone (by simp)

/-- C7: on the six pairs of a valid direction set, a non-empty result of
`resolve_orientation` is a duplicate-free permutation of 1..6 and equals the
primary sequence of the first flip tuple — in the lexicographic enumeration
order of `itertools.product([0,1], repeat=6)` — whose primary values are
pairwise distinct. -/
theorem claimC7 (ps : List (ℤ × ℤ)) (hlen : ps.length = 6)
    (hcount : ∀ k : ℤ, k ∈ ([1, 2, 3, 4, 5, 6] : List ℤ) →
      (ps.flatMap fun p => [p.1, p.2]).count k = 2)
    (hne : resolve_orientation ps ≠ []) :
    (resolve_orientation ps).Nodup ∧
    (resolve_orientation ps).Perm [1, 2, 3, 4, 5, 6] ∧
    List.Pairwise (List.Lex (· < ·)) flipTuples ∧
    (∀ l : List ℕ, l ∈ flipTuples ↔
      (l.length = 6 ∧ ∀ x ∈ l, x ∈ ([0, 1] : List ℕ))) ∧
    ∃ flips l1 l2, flipTuples = l1 ++ flips :: l2 ∧
      (∀ fl ∈ l1, distinct6B (primary ps fl) = false) ∧
      distinct6B (primary ps flips) = true ∧
      resolve_orientation ps = primary ps flips := by
  cases hfind : flipTuples.find? (fun fl => distinct6B (primary ps fl)) with
  | none =>
    exact absurd (by unfold resolve_orientation; rw [hfind]) hne
  | some flips =>
    have hres : resolve_orientation ps = primary ps flips := by
      unfold resolve_orientation
      rw [hfind]
    obtain ⟨hnd, hperm⟩ := resolve_perm hlen hcount hfind
    obtain ⟨l1, l2, hsplit, hl1, hfl⟩ := find?_first hfind
    refine ⟨by rw [hres]; exact hnd, by rw [hres]; exact hperm,
      productR_sorted_lex (show List.Sorted (· < ·) [0, 1] by decide) 6,
      fun l => mem_productR, flips, l1, l2, hsplit, ?_, by simpa using hfl, hres⟩
    intro fl hfl1
    simpa using hl1 fl hfl1

/-- Witness for C7 at a concrete valid direction set. -/
theorem claimC7_witness :
    (resolve_orientation [(1, 2), (3, 4), (5, 6), (1, 2), (3, 4), (5, 6)]).Nodup ∧
    (resolve_orientation
      [(1, 2), (3, 4), (5, 6), (1, 2), (3, 4), (5, 6)]).Perm [1, 2, 3, 4, 5, 6] ∧
    List.Pairwise (List.Lex (· < ·)) flipTuples ∧
    (∀ l : List ℕ, l ∈ flipTuples ↔
      (l.length = 6 ∧ ∀ x ∈ l, x ∈ ([0, 1] : List ℕ))) ∧
    ∃ flips l1 l2, flipTuples = l1 ++ flips :: l2 ∧
      (∀ fl ∈ l1, distinct6B
        (primary [(1, 2), (3, 4), (5, 6), (1, 2), (3, 4), (5, 6)] fl) = false) ∧
      distinct6B
        (primary [(1, 2), (3, 4), (5, 6), (1, 2), (3, 4), (5, 6)] flips) = true ∧
      resolve_orientation [(1, 2), (3, 4), (5, 6), (1, 2), (3, 4), (5, 6)]
        = primary [(1, 2), (3, 4), (5, 6), (1, 2), (3, 4), (5, 6)] flips :=
  claimC7 [(1, 2), (3, 4), (5, 6), (1, 2), (3, 4), (5, 6)] (by decide) (by decide)
    (by decide)
